import Mathlib

/-!
# Verification of ScreenPlayWallpapers core logic

Shallow embedding of the core functions of `screenplay_wallpaper.py`:

* `chunk_into_pages_by_words_and_lines` (pagination by word budget on line
  boundaries),
* `pick_page_for_date` (date-based page rotation),
* `get_or_create_start_date` (persisted rotation state),
* the whitespace normalisation step of `download_and_store_script`.

Python strings are modelled as `String` / `List Char`; the line-by-line
loops become structural recursions over lists; calendar dates used only
for day arithmetic become `Int` day ordinals; dates that are parsed and
printed become a `PyDate` record.  Definitions come first, followed by
the theorems about them.
-/

set_option autoImplicit false

namespace ScreenPlayWallpapers

/-! ## Word counting

`len(line.strip().split()) if line.strip() else 0` from the source, line 92.
Python's argument-free `str.split` splits on maximal runs of characters `c`
with `c.isspace()`; the count of tokens is the count of maximal runs of
non-whitespace characters.  (When `line.strip()` is empty the Python code
short-circuits to `0`, which coincides with the token count.) -/

/-- The characters Python's `str.isspace` accepts (and hence the separators
of the argument-free `str.split`). -/
def pyIsSpace (c : Char) : Bool :=
  c = ' ' || c = '\t' || c = '\n' || c = '\x0b' || c = '\x0c' || c = '\r' ||
  c = '\x1c' || c = '\x1d' || c = '\x1e' || c = '\x1f' || c = '\x85' ||
  c = '\xa0' || c = '\u1680' ||
  (0x2000 ≤ c.toNat && c.toNat ≤ 0x200a) ||
  c = '\u2028' || c = '\u2029' || c = '\u202f' || c = '\u205f' || c = '\u3000'

/-- Count the maximal runs of non-whitespace characters; the boolean says
whether the previous character belonged to a word. -/
def countWordsAux : List Char → Bool → Nat
  | [], _ => 0
  | c :: cs, inWord =>
    if pyIsSpace c then countWordsAux cs false
    else (if inWord then 0 else 1) + countWordsAux cs true

/-- Word count of one line: `len(line.strip().split()) if line.strip()
else 0` (source line 92). -/
def wordsInLine (line : String) : Nat :=
  countWordsAux line.data false

/-! ## The paginator

`chunk_into_pages_by_words_and_lines` (source lines 80–105) walks
`text.splitlines()` once; we embed the loop as a recursion over the line
list.  A page is the list of the lines it holds (the Python code stores it
re-joined with `"\n"`, which is a bijective packaging of the same data since
split lines contain no newline). -/

/-- The loop of `chunk_into_pages_by_words_and_lines`: `cur` is
`current_lines`, `cnt` is `current_word_count`. -/
def chunkAux (wpp : Nat) : List String → List String → Nat → List (List String)
  | [], cur, _ => if cur = [] then [] else [cur]
  | l :: rest, cur, cnt =>
    let w := wordsInLine l
    if cnt + w > wpp ∧ cur ≠ [] then
      cur :: chunkAux wpp rest [l] w
    else
      chunkAux wpp rest (cur ++ [l]) (cnt + w)

/-- The paginator `chunk_into_pages_by_words_and_lines` on an already-split
line list (the Python function receives `text` and immediately takes
`text.splitlines()`). -/
def chunk_into_pages_by_words_and_lines (lines : List String) (wpp : Nat) :
    List (List String) :=
  chunkAux wpp lines [] 0

/-- Total word count of a page, the sum of its lines' word counts. -/
def pageWords (page : List String) : Nat :=
  (page.map wordsInLine).sum

/-! ## Date rotation: `pick_page_for_date` (source lines 207–217)

`dt.date` values here are only subtracted (`(today - start_date).days`
is an exact whole-day integer difference for `datetime.date`), so dates
are embedded as `Int` day ordinals.  `image_paths[idx]` on an empty list
raises in Python (`len` is `0`, `%` raises `ZeroDivisionError`), which the
embedding renders as `none`. -/

/-- Embedding of `pick_page_for_date(image_paths, start_date, today)`:
`days_since = (today - start_date).days`, clamped below at `0`, then
`idx = days_since % len(image_paths)` and `image_paths[idx]`. -/
def pick_page_for_date {α : Type} (image_paths : List α)
    (start_date today : Int) : Option α :=
  let d0 := today - start_date
  let days_since := if d0 < 0 then 0 else d0
  if image_paths.length = 0 then none
  else image_paths.get? (days_since % (image_paths.length : Int)).toNat

/-! ## Rotation state: `get_or_create_start_date` (source lines 184–204)

The function reads `<slug>_meta.json`, feeds it to `json.loads`, extracts
`data["start_date"]` and parses it with `dt.date.fromisoformat` inside a
`try/except` whose handler falls through to reinitialisation; `json.loads`
itself sits OUTSIDE the `try`.  The meta file is threaded as explicit
state; `dt.date.today()` is passed in as `today`. -/

/-- A `datetime.date`: year, month, day. -/
structure PyDate where
  year : Nat
  month : Nat
  day : Nat
deriving DecidableEq, Repr

/-- Gregorian leap-year rule, as in `calendar.isleap`. -/
def isLeapYear (y : Nat) : Bool :=
  y % 4 = 0 && (y % 100 ≠ 0 || y % 400 = 0)

/-- Days in a month of a given year. -/
def daysInMonth (y m : Nat) : Nat :=
  if m = 2 then (if isLeapYear y then 29 else 28)
  else if m = 4 ∨ m = 6 ∨ m = 9 ∨ m = 11 then 30
  else 31

/-- The `datetime.date` constructor's validation: year in `1..9999`,
month in `1..12`, day in `1..days_in_month`. -/
def mkDateChecked (y m d : Nat) : Option PyDate :=
  if 1 ≤ y ∧ y ≤ 9999 ∧ 1 ≤ m ∧ m ≤ 12 ∧ 1 ≤ d ∧ d ≤ daysInMonth y m
  then some ⟨y, m, d⟩ else none

/-- Numeric value of a decimal digit character. -/
def digitVal (c : Char) : Nat := c.toNat - 48

/-- Parser `dt.date.fromisoformat` on the `YYYY-MM-DD` form: exactly ten
characters, digits in the date positions, dashes between, and a valid
calendar date; anything else raises `ValueError`, i.e. `none`. -/
def fromisoformat (s : String) : Option PyDate :=
  match s.data with
  | [y1, y2, y3, y4, '-', m1, m2, '-', d1, d2] =>
    if y1.isDigit && y2.isDigit && y3.isDigit && y4.isDigit &&
        m1.isDigit && m2.isDigit && d1.isDigit && d2.isDigit then
      mkDateChecked
        (1000 * digitVal y1 + 100 * digitVal y2 + 10 * digitVal y3 + digitVal y4)
        (10 * digitVal m1 + digitVal m2)
        (10 * digitVal d1 + digitVal d2)
    else none
  | _ => none

/-- Zero padding, as used by `date.isoformat()`. -/
def padZeros (w : Nat) (s : List Char) : List Char :=
  List.replicate (w - s.length) '0' ++ s

/-- Python `date.isoformat()`: zero-padded `YYYY-MM-DD`. -/
def isoformat (d : PyDate) : String :=
  ⟨padZeros 4 (Nat.toDigits 10 d.year) ++
    '-' :: padZeros 2 (Nat.toDigits 10 d.month) ++
    '-' :: padZeros 2 (Nat.toDigits 10 d.day)⟩

/-- A parsed JSON document, the outcome of a successful `json.loads`. -/
inductive JsonValue where
  | null
  | bool (b : Bool)
  | num (n : Int)
  | str (s : String)
  | arr (elems : List JsonValue)
  | obj (fields : List (String × JsonValue))

/-- Dictionary lookup, `data["start_date"]` on a JSON object. -/
def lookupField : List (String × JsonValue) → String → Option JsonValue
  | [], _ => none
  | (k, v) :: rest, key => if k = key then some v else lookupField rest key

/-- The guarded extraction `dt.date.fromisoformat(data["start_date"])`
under `try/except Exception`: a non-object document (`TypeError` on
indexing), a missing key (`KeyError`), a non-string value (`TypeError` in
`fromisoformat`) and an invalid date string (`ValueError`) are all caught,
yielding `none`. -/
def tryParsedStartDate : JsonValue → Option PyDate
  | .obj fields =>
    match lookupField fields "start_date" with
    | some (.str s) => fromisoformat s
    | _ => none
  | _ => none

/-- Contents of `<slug>_meta.json` as seen through `json.loads`: the file
is absent, or present but rejected by `json.loads` (e.g. contents
`"{not json"`), or parses to a JSON document.  `json.loads` is Python
library code, so only its outcome is modelled. -/
inductive MetaFile where
  | absent
  | invalidJson
  | parsed (v : JsonValue)

/-- The record `get_or_create_start_date` writes on (re)initialisation:
`{"start_date": today.isoformat()}` (source lines 200–203). -/
def freshMeta (today : PyDate) : MetaFile :=
  .parsed (.obj [("start_date", .str (isoformat today))])

/-- Embedding of `get_or_create_start_date` (source lines 184–204):
returns the chosen date together with the meta-file contents after the
call, or an uncaught exception.  The `json.loads` call is outside the
`try`, so syntactically invalid JSON escapes as an error. -/
def get_or_create_start_date (today : PyDate) (st : MetaFile) :
    Except Unit (PyDate × MetaFile) :=
  match st with
  | .absent => .ok (today, freshMeta today)
  | .invalidJson => .error ()
  | .parsed v =>
    match tryParsedStartDate v with
    | some d => .ok (d, .parsed v)
    | none => .ok (today, freshMeta today)

/-! ## Text normalisation (source lines 44–62)

`download_and_store_script` normalises the extracted text:

```
text = text.replace(" ", " ").replace(" ", " ").replace(" ", " ")
text = text.replace("\t", "    ")
lines = []
for line in text.splitlines():
    line = re.sub(r"^[﻿​‌‍]+", "", line)
    lines.append(line.rstrip("\r\n"))
cleaned = "\n".join(lines)
```

Texts are embedded as `List Char`.  Python `str.splitlines` splits on
`\n`, `\r`, `\v`, `\f`, `\x1c`, `\x1d`, `\x1e`, `\x85`, ` `,
` `, treating `\r\n` as a single break; it is modelled as collapsing
`\r\n` to `\n` and then splitting on single break characters. -/

/-- The line-break characters of Python `str.splitlines`. -/
def isLineBreak (c : Char) : Bool :=
  c = '\n' || c = '\r' || c = '\x0b' || c = '\x0c' ||
  c = '\x1c' || c = '\x1d' || c = '\x1e' || c = '\x85' ||
  c = '\u2028' || c = '\u2029'

/-- The chained `str.replace` calls, one pass per character (the chaining
is equivalent to a single pass because no replacement output is itself
replaced later): NBSP, figure space and narrow NBSP become a space, a tab
becomes four spaces. -/
def replaceChar (c : Char) : List Char :=
  if c = '\xa0' ∨ c = '\u2007' ∨ c = '\u202f' then [' ']
  else if c = '\t' then [' ', ' ', ' ', ' ']
  else [c]

/-- Collapse each `\r\n` pair to `\n` (the two-character break of
`str.splitlines`). -/
def collapseCRLF : List Char → List Char
  | [] => []
  | [c] => [c]
  | c1 :: c2 :: rest =>
    if c1 = '\r' ∧ c2 = '\n' then '\n' :: collapseCRLF rest
    else c1 :: collapseCRLF (c2 :: rest)

/-- Split on single break characters, Python style: a break closes the
current line, and a trailing line is kept only when non-empty
(`"a\n".splitlines() == ["a"]`, `"\n".splitlines() == [""]`). -/
def splitOnBreaks : List Char → List (List Char)
  | [] => []
  | c :: rest =>
    if isLineBreak c then [] :: splitOnBreaks rest
    else
      match splitOnBreaks rest with
      | [] => [[c]]
      | l :: ls => (c :: l) :: ls

/-- Python `str.splitlines` on character lists. -/
def pySplitlinesL (t : List Char) : List (List Char) :=
  splitOnBreaks (collapseCRLF t)

/-- The zero-width / invisible marks of `re.sub(r"^[﻿​‌‍]+", "", line)`. -/
def isMark (c : Char) : Bool :=
  c = '\ufeff' || c = '\u200b' || c = '\u200c' || c = '\u200d'

/-- Strip the leading run of marks from a line. -/
def stripLeadingMarks : List Char → List Char
  | [] => []
  | c :: rest => if isMark c then stripLeadingMarks rest else c :: rest

/-- Trailing strip `line.rstrip("\r\n")`: drop the trailing run of `\r`
and `\n` characters. -/
def rstripCRLF : List Char → List Char
  | [] => []
  | c :: rest =>
    match rstripCRLF rest with
    | [] => if c = '\r' ∨ c = '\n' then [] else [c]
    | l :: ls => c :: l :: ls

/-- The whole per-line processing of the loop. -/
def normalizeLineL (l : List Char) : List Char :=
  rstripCRLF (stripLeadingMarks l)

/-- Python `"\n".join(lines)`. -/
def joinNL : List (List Char) → List Char
  | [] => []
  | [l] => l
  | l :: ls => l ++ '\n' :: joinNL ls

/-- The full normalisation step of `download_and_store_script`
(source lines 44–62) on character lists. -/
def normalizeTextL (t : List Char) : List Char :=
  joinNL ((pySplitlinesL (t.flatMap replaceChar)).map normalizeLineL)

/-- The full normalisation step on strings. -/
def normalizeText (s : String) : String :=
  ⟨normalizeTextL s.data⟩

/-- What one input line turns into: character replacement, mark stripping,
trailing `\r\n` stripping. -/
def normalizeFullLine (l : List Char) : List Char :=
  normalizeLineL (l.flatMap replaceChar)

/-- Drop the last element of a line list when it is the empty line (the
information `"\n".join` forgets: a final empty line leaves no trace). -/
def stripLastEmpty : List (List Char) → List (List Char)
  | [] => []
  | [l] => if l = [] then [] else [l]
  | l :: ls => l :: stripLastEmpty ls

/-- Prepend a break-free run to the first line of a split. -/
def prependRun (l : List Char) : List (List Char) → List (List Char)
  | [] => if l = [] then [] else [l]
  | m :: ms => (l ++ m) :: ms

/-! ## Paginator theorems -/

theorem chunkAux_flatten (wpp : Nat) :
    ∀ (rest cur : List String) (cnt : Nat),
      (chunkAux wpp rest cur cnt).flatten = cur ++ rest := by
  intro rest
  induction rest with
  | nil =>
    intro cur cnt
    by_cases h : cur = [] <;> simp [chunkAux, h]
  | cons l rest ih =>
    intro cur cnt
    unfold chunkAux
    by_cases h : cnt + wordsInLine l > wpp ∧ cur ≠ [] <;>
      simp [h, ih, List.append_assoc]

/-- C1: for every non-empty line sequence and positive `words_per_page`,
concatenating the pages returned by `chunk_into_pages_by_words_and_lines`
in order reproduces the original line sequence exactly: every line belongs
to exactly one page, in order, with no gaps, overlaps, splits or drops. -/
theorem chunk_pages_flatten (lines : List String) (wpp : Nat)
    (hne : lines ≠ []) (hpos : 0 < wpp) :
    (chunk_into_pages_by_words_and_lines lines wpp).flatten = lines := by
  unfold chunk_into_pages_by_words_and_lines
  simpa using chunkAux_flatten wpp lines [] 0

/-- Witness for C1 at a concrete input. -/
theorem chunk_pages_flatten_witness :
    (chunk_into_pages_by_words_and_lines ["INT. HOUSE", "", "JOHN",
        "Hello there friend"] 3).flatten
      = ["INT. HOUSE", "", "JOHN", "Hello there friend"] :=
  chunk_pages_flatten _ 3 (by decide) (by decide)

/-- Once the running word count already exceeds the budget, the very next
step (or the final flush) emits the accumulated page unchanged. -/
theorem chunkAux_mem_self (wpp : Nat) :
    ∀ (rest cur : List String) (cnt : Nat), cur ≠ [] → wpp < cnt →
      cur ∈ chunkAux wpp rest cur cnt := by
  intro rest cur cnt hcur hcnt
  cases rest with
  | nil => simp [chunkAux, hcur]
  | cons l r =>
    have hover : cnt + wordsInLine l > wpp := lt_of_lt_of_le hcnt (Nat.le_add_right _ _)
    simp [chunkAux, hover, hcur]

/-- A line whose own word count exceeds the budget always lands alone on a
page, whatever the accumulator state when it is reached. -/
theorem chunkAux_overlong_alone (wpp : Nat) (l : String)
    (hw : wpp < wordsInLine l) :
    ∀ (rest cur : List String) (cnt : Nat), l ∈ rest →
      [l] ∈ chunkAux wpp rest cur cnt := by
  intro rest
  induction rest with
  | nil => intro cur cnt hmem; cases hmem
  | cons x r ih =>
    intro cur cnt hmem
    rcases List.mem_cons.mp hmem with hx | hr
    · subst hx
      simp only [chunkAux]
      by_cases hg : cnt + wordsInLine l > wpp ∧ cur ≠ []
      · rw [if_pos hg]
        exact List.mem_cons_of_mem _
          (chunkAux_mem_self wpp r [l] (wordsInLine l) (by simp) hw)
      · rw [if_neg hg]
        have hcur : cur = [] := by
          by_contra hne
          exact hg ⟨lt_of_lt_of_le hw (Nat.le_add_left _ _), hne⟩
        subst hcur
        exact chunkAux_mem_self wpp r ([] ++ [l]) (cnt + wordsInLine l) (by simp)
          (lt_of_lt_of_le hw (Nat.le_add_left _ _))
    · simp only [chunkAux]
      by_cases hg : cnt + wordsInLine x > wpp ∧ cur ≠ []
      · rw [if_pos hg]
        exact List.mem_cons_of_mem _ (ih _ _ hr)
      · rw [if_neg hg]
        exact ih _ _ hr

/-- C4: for every line sequence, every positive `words_per_page` and
every input line whose word count alone exceeds `words_per_page`, the
paginator emits a page consisting of exactly that line: the line is alone
on its page, neither dropped nor split. -/
theorem chunk_overlong_line_alone (lines : List String) (wpp : Nat)
    (l : String) (hl : l ∈ lines) (hw : wpp < wordsInLine l) (hpos : 0 < wpp) :
    [l] ∈ chunk_into_pages_by_words_and_lines lines wpp :=
  chunkAux_overlong_alone wpp l hw lines [] 0 hl

/-- Witness for C4 at a concrete input. -/
theorem chunk_overlong_line_alone_witness :
    ["a b c"] ∈ chunk_into_pages_by_words_and_lines ["x", "a b c", "y"] 1 :=
  chunk_overlong_line_alone _ 1 "a b c" (by decide) (by decide) (by decide)

/-- Every page the loop ever emits is non-empty: a page is only closed when
`current_lines` is non-empty, and the final flush is guarded the same way. -/
theorem chunkAux_pages_ne_nil (wpp : Nat) :
    ∀ (rest cur : List String) (cnt : Nat),
      ∀ p ∈ chunkAux wpp rest cur cnt, p ≠ [] := by
  intro rest
  induction rest with
  | nil =>
    intro cur cnt p hp
    by_cases h : cur = [] <;> simp [chunkAux, h] at hp
    simp [hp, h]
  | cons l r ih =>
    intro cur cnt p hp
    simp only [chunkAux] at hp
    by_cases hg : cnt + wordsInLine l > wpp ∧ cur ≠ []
    · rw [if_pos hg] at hp
      rcases List.mem_cons.mp hp with hpc | hpr
      · rw [hpc]; exact hg.2
      · exact ih _ _ _ hpr
    · rw [if_neg hg] at hp
      exact ih _ _ _ hp

/-- C6: for every line sequence and positive `words_per_page`, every
page emitted by the paginator contains at least one line; an empty page
never occurs, and an empty input produces no pages at all. -/
theorem chunk_no_empty_page (lines : List String) (wpp : Nat) (hpos : 0 < wpp) :
    (∀ p ∈ chunk_into_pages_by_words_and_lines lines wpp, p ≠ []) ∧
      (lines = [] → chunk_into_pages_by_words_and_lines lines wpp = []) := by
  constructor
  · exact chunkAux_pages_ne_nil wpp lines [] 0
  · intro h; subst h; rfl

/-- Witness for C6 at a concrete input. -/
theorem chunk_no_empty_page_witness :
    (∀ p ∈ chunk_into_pages_by_words_and_lines ["a"] 1, p ≠ []) ∧
      (["a"] = [] → chunk_into_pages_by_words_and_lines ["a"] 1 = []) :=
  chunk_no_empty_page ["a"] 1 (by decide)

/-- While every remaining line has word count zero, the budget check never
fires and the loop just appends every line to the current page. -/
theorem chunkAux_all_zero (wpp : Nat) :
    ∀ (rest cur : List String) (cnt : Nat),
      (∀ l ∈ rest, wordsInLine l = 0) → cnt ≤ wpp →
      chunkAux wpp rest cur cnt =
        if cur ++ rest = [] then [] else [cur ++ rest] := by
  intro rest
  induction rest with
  | nil => intro cur cnt _ _; simp [chunkAux]
  | cons l r ih =>
    intro cur cnt hz hcnt
    have hl : wordsInLine l = 0 := hz l (List.mem_cons_self l r)
    have hng : ¬(cnt + wordsInLine l > wpp ∧ cur ≠ []) := by
      rintro ⟨h1, -⟩; omega
    simp only [chunkAux]
    rw [if_neg hng]
    rw [ih (cur ++ [l]) (cnt + wordsInLine l)
        (fun x hx => hz x (List.mem_cons_of_mem l hx)) (by omega)]
    simp

/-- C7: for every positive `words_per_page`, empty input yields the
empty page list, and any non-empty input of blank / whitespace-only lines
(word count zero) yields exactly one page holding all of those lines. -/
theorem chunk_empty_and_blank (lines : List String) (wpp : Nat) (hpos : 0 < wpp) :
    chunk_into_pages_by_words_and_lines [] wpp = [] ∧
      (lines ≠ [] → (∀ l ∈ lines, wordsInLine l = 0) →
        chunk_into_pages_by_words_and_lines lines wpp = [lines]) := by
  constructor
  · rfl
  · intro hne hz
    unfold chunk_into_pages_by_words_and_lines
    rw [chunkAux_all_zero wpp lines [] 0 hz (Nat.zero_le _)]
    simp [hne]

/-- Witness for C7 at a concrete input. -/
theorem chunk_empty_and_blank_witness :
    chunk_into_pages_by_words_and_lines [] 3 = [] ∧
      (["", "   "] ≠ [] → (∀ l ∈ ["", "   "], wordsInLine l = 0) →
        chunk_into_pages_by_words_and_lines ["", "   "] 3 = [["", "   "]]) :=
  chunk_empty_and_blank ["", "   "] 3 (by decide)

/-- Sum of word counts distributes over appending a line. -/
theorem pageWords_append_one (cur : List String) (l : String) :
    pageWords (cur ++ [l]) = pageWords cur + wordsInLine l := by
  simp [pageWords]

/-- Invariant of the loop: if the running count matches the accumulated
page and a multi-line accumulator is within budget, then every emitted page
is within budget or a single line. -/
theorem chunkAux_budget (wpp : Nat) :
    ∀ (rest cur : List String) (cnt : Nat),
      cnt = pageWords cur → (2 ≤ cur.length → cnt ≤ wpp) →
      ∀ p ∈ chunkAux wpp rest cur cnt, pageWords p ≤ wpp ∨ p.length = 1 := by
  intro rest
  induction rest with
  | nil =>
    intro cur cnt hcnt hbud p hp
    simp only [chunkAux] at hp
    by_cases h : cur = []
    · rw [if_pos h] at hp
      exact absurd hp (by simp)
    · rw [if_neg h] at hp
      have hpc : p = cur := by simpa using hp
      subst hpc
      rcases p with _ | ⟨x, t⟩
      · exact absurd rfl h
      · rcases t with _ | ⟨y, t2⟩
        · right; rfl
        · left; rw [← hcnt]; exact hbud (by simp)
  | cons l r ih =>
    intro cur cnt hcnt hbud p hp
    simp only [chunkAux] at hp
    by_cases hg : cnt + wordsInLine l > wpp ∧ cur ≠ []
    · rw [if_pos hg] at hp
      rcases List.mem_cons.mp hp with hpc | hpr
      · subst hpc
        rcases p with _ | ⟨x, t⟩
        · exact absurd rfl hg.2
        · rcases t with _ | ⟨y, t2⟩
          · right; rfl
          · left; rw [← hcnt]; exact hbud (by simp)
      · exact ih [l] (wordsInLine l) (by simp [pageWords]) (by simp) p hpr
    · rw [if_neg hg] at hp
      refine ih (cur ++ [l]) (cnt + wordsInLine l) ?_ ?_ p hp
      · rw [pageWords_append_one, hcnt]
      · intro hlen
        rcases not_and_or.mp hg with hle | hcur
        · exact Nat.le_of_not_lt hle
        · rw [not_not] at hcur
          subst hcur
          exact absurd hlen (by simp)

/-- C10: for every line sequence and positive `words_per_page`, every
emitted page either has total word count at most `words_per_page` or
consists of exactly one line: only a lone over-budget line can exceed the
budget. -/
theorem chunk_page_budget (lines : List String) (wpp : Nat) (hpos : 0 < wpp) :
    ∀ p ∈ chunk_into_pages_by_words_and_lines lines wpp,
      pageWords p ≤ wpp ∨ p.length = 1 :=
  chunkAux_budget wpp lines [] 0 (by simp [pageWords]) (by simp)

/-- Witness for C10 at a concrete input: both pages of a concrete run. -/
theorem chunk_page_budget_witness :
    (pageWords ["a b"] ≤ 4 ∨ (["a b"] : List String).length = 1) ∧
      (pageWords ["c d e"] ≤ 4 ∨ (["c d e"] : List String).length = 1) :=
  ⟨chunk_page_budget ["a b", "c d e"] 4 (by decide) ["a b"] (by decide),
    chunk_page_budget ["a b", "c d e"] 4 (by decide) ["c d e"] (by decide)⟩

/-! ## Date rotation theorems -/

theorem pick_page_nonneg_index {α : Type} (ps : List α) (s t : Int)
    (hne : ps ≠ []) :
    pick_page_for_date ps s t =
      ps.get? ((if t - s < 0 then 0 else t - s) % (ps.length : Int)).toNat := by
  have hlen : ps.length ≠ 0 := fun h => hne (List.length_eq_zero.mp h)
  simp [pick_page_for_date, hlen]

/-- C5: for every non-empty page list and every `start_date`:
with `today = start_date` the scheduler returns the first page, and with
`today` strictly earlier than `start_date` it also returns the first page,
because the whole-day difference is clamped to zero before the modulo. -/
theorem pick_page_start_and_past {α : Type} (ps : List α) (s t : Int)
    (hne : ps ≠ []) :
    pick_page_for_date ps s s = ps.head? ∧
      (t < s → pick_page_for_date ps s t = ps.head?) := by
  rcases ps with _ | ⟨x, rest⟩
  · exact absurd rfl hne
  · constructor
    · simp [pick_page_for_date]
    · intro hts
      have hneg : t - s < 0 := by omega
      simp [pick_page_for_date, hneg]

/-- Witness for C5 at a concrete input. -/
theorem pick_page_start_and_past_witness :
    pick_page_for_date ["p0", "p1", "p2"] 10 10 = ["p0", "p1", "p2"].head? ∧
      ((7 : Int) < 10 →
        pick_page_for_date ["p0", "p1", "p2"] 10 7 = ["p0", "p1", "p2"].head?) :=
  pick_page_start_and_past ["p0", "p1", "p2"] 10 7 (by decide)

/-- C2, counterexample: periodicity fails for `today` earlier than
`start_date`: with 5 pages, `start_date = 10`, `today = 7` and `N = 1`,
the clamp sends `today` to page 0 but `today + 1*5 = 12` to page 2. -/
theorem pick_page_periodicity_cex :
    pick_page_for_date ["p0", "p1", "p2", "p3", "p4"] 10 7 = some "p0" ∧
      pick_page_for_date ["p0", "p1", "p2", "p3", "p4"] 10
          (7 + 1 * (["p0", "p1", "p2", "p3", "p4"] : List String).length) =
        some "p2" ∧
      (some "p0" : Option String) ≠ some "p2" := by
  refine ⟨?_, ?_, by decide⟩ <;> rfl

/-- C2, amended: for every non-empty page list, `start_date`, and
`today` not earlier than `start_date`, page selection is periodic in the
page count: shifting `today` by `N * len(pages)` days (`N ≥ 0`) selects the
same page.  (The original claim, for arbitrary `today`, fails: the clamp
breaks periodicity when `today` is earlier than `start_date`.) -/
theorem pick_page_periodic {α : Type} (ps : List α) (s t : Int) (N : Int)
    (hne : ps ≠ []) (hst : s ≤ t) (hN : 0 ≤ N) :
    pick_page_for_date ps s (t + N * (ps.length : Int)) =
      pick_page_for_date ps s t := by
  have hlen : (0 : Int) < (ps.length : Int) := by
    have : ps.length ≠ 0 := fun h => hne (List.length_eq_zero.mp h)
    omega
  rw [pick_page_nonneg_index ps s t hne,
    pick_page_nonneg_index ps s (t + N * (ps.length : Int)) hne]
  have h1 : ¬ t - s < 0 := by omega
  have h2 : ¬ t + N * (ps.length : Int) - s < 0 := by
    have : 0 ≤ N * (ps.length : Int) := mul_nonneg hN (le_of_lt hlen)
    omega
  rw [if_neg h1, if_neg h2]
  have : t + N * (ps.length : Int) - s = t - s + (ps.length : Int) * N := by ring
  rw [this, Int.add_mul_emod_self_left]

/-- Witness for C2 (amended) at a concrete input. -/
theorem pick_page_periodic_witness :
    pick_page_for_date ["p0", "p1", "p2", "p3", "p4"] 10
        (12 + 2 * ((["p0", "p1", "p2", "p3", "p4"] : List String).length : Int)) =
      pick_page_for_date ["p0", "p1", "p2", "p3", "p4"] 10 12 :=
  pick_page_periodic ["p0", "p1", "p2", "p3", "p4"] 10 12 2 (by decide)
    (by decide) (by decide)

/-! ## Rotation state theorems -/

/-- C3, counterexample: a meta file whose contents `json.loads`
rejects is NOT recovered: `json.loads` runs outside the `try`, so the call
raises instead of returning the current date. -/
theorem get_or_create_invalid_json_cex :
    get_or_create_start_date ⟨2024, 1, 13⟩ MetaFile.invalidJson =
      Except.error () := rfl

/-- C3, amended: a missing meta file, or one that parses as JSON but
yields no valid start date (missing key, non-object document, non-string
or invalid date string), is recovered by reinitialisation: the call
returns the current date, persists it, and raises no error.  A file that
is not valid JSON, however, raises an uncaught error. -/
theorem get_or_create_recovers (today : PyDate) (v : JsonValue)
    (hv : tryParsedStartDate v = none) :
    get_or_create_start_date today MetaFile.absent =
        Except.ok (today, freshMeta today) ∧
      get_or_create_start_date today (MetaFile.parsed v) =
        Except.ok (today, freshMeta today) := by
  constructor
  · rfl
  · simp [get_or_create_start_date, hv]

/-- Witness for C3 (amended) at a concrete input. -/
theorem get_or_create_recovers_witness :
    get_or_create_start_date ⟨2024, 1, 13⟩ MetaFile.absent =
        Except.ok (⟨2024, 1, 13⟩, freshMeta ⟨2024, 1, 13⟩) ∧
      get_or_create_start_date ⟨2024, 1, 13⟩
          (MetaFile.parsed (.obj [("start_date", .str "not-a-date")])) =
        Except.ok (⟨2024, 1, 13⟩, freshMeta ⟨2024, 1, 13⟩) :=
  get_or_create_recovers ⟨2024, 1, 13⟩
    (.obj [("start_date", .str "not-a-date")]) (by decide)

/-- C8: whenever the persisted meta file parses as JSON and its
`start_date` entry parses as a valid calendar date,
`get_or_create_start_date` returns that date and leaves the persisted
state unchanged: no write happens. -/
theorem get_or_create_existing (today d : PyDate) (v : JsonValue)
    (hv : tryParsedStartDate v = some d) :
    get_or_create_start_date today (MetaFile.parsed v) =
      Except.ok (d, MetaFile.parsed v) := by
  simp [get_or_create_start_date, hv]

/-- Witness for C8 at a concrete input. -/
theorem get_or_create_existing_witness :
    get_or_create_start_date ⟨2025, 6, 1⟩
        (MetaFile.parsed (.obj [("start_date", .str "2024-01-01")])) =
      Except.ok (⟨2024, 1, 1⟩,
        MetaFile.parsed (.obj [("start_date", .str "2024-01-01")])) :=
  get_or_create_existing ⟨2025, 6, 1⟩ ⟨2024, 1, 1⟩
    (.obj [("start_date", .str "2024-01-01")]) (by decide)

/-! ## Normalisation theorems -/

theorem replaceChar_ne_nil (c : Char) : replaceChar c ≠ [] := by
  unfold replaceChar
  split
  · simp
  · split <;> simp

theorem replaceChar_break {c : Char} (h : isLineBreak c = true) :
    replaceChar c = [c] := by
  have h1 : ¬(c = '\xa0' ∨ c = '\u2007' ∨ c = '\u202f') := by
    rintro (rfl | rfl | rfl) <;> exact absurd h (by decide)
  have h2 : ¬(c = '\t') := by rintro rfl; exact absurd h (by decide)
  unfold replaceChar
  rw [if_neg h1, if_neg h2]

theorem replaceChar_nonbreak {c : Char} (h : isLineBreak c = false) :
    ∀ d ∈ replaceChar c, isLineBreak d = false := by
  intro d hd
  unfold replaceChar at hd
  split at hd
  · simp at hd; subst hd; decide
  · split at hd
    · simp at hd; subst hd; decide
    · simp at hd; subst hd; exact h

theorem not_mem_replaceChar {b c : Char} (hb : isLineBreak b = true)
    (hbc : c ≠ b) : b ∉ replaceChar c := by
  intro hmem
  cases hc : isLineBreak c with
  | false => exact absurd (replaceChar_nonbreak hc b hmem) (by simp [hb])
  | true =>
    rw [replaceChar_break hc] at hmem
    simp at hmem
    exact hbc hmem.symm

theorem collapseCRLF_append_no_cr :
    ∀ (l xs : List Char), '\r' ∉ l →
      collapseCRLF (l ++ xs) = l ++ collapseCRLF xs := by
  intro l
  induction l with
  | nil => intro xs _; rfl
  | cons a l ih =>
    intro xs hno
    have ha : a ≠ '\r' := fun h => hno (h ▸ List.mem_cons_self a l)
    have hl : '\r' ∉ l := fun h => hno (List.mem_cons_of_mem a h)
    cases l with
    | nil =>
      cases xs with
      | nil => rfl
      | cons b t =>
        show collapseCRLF (a :: b :: t) = a :: collapseCRLF (b :: t)
        simp only [collapseCRLF]
        rw [if_neg]
        rintro ⟨rfl, -⟩
        exact ha rfl
    | cons b t =>
      show collapseCRLF (a :: b :: (t ++ xs)) = a :: ((b :: t) ++ collapseCRLF xs)
      simp only [collapseCRLF]
      rw [if_neg]
      · rw [show b :: (t ++ xs) = (b :: t) ++ xs from rfl, ih xs hl]
      · rintro ⟨rfl, -⟩
        exact ha rfl

theorem collapseCRLF_no_cr {t : List Char} (h : '\r' ∉ t) :
    collapseCRLF t = t := by
  simpa [show collapseCRLF [] = [] from rfl]
    using collapseCRLF_append_no_cr t [] h

theorem collapseCRLF_flatMap :
    ∀ t : List Char, collapseCRLF (t.flatMap replaceChar) =
      (collapseCRLF t).flatMap replaceChar
  | [] => rfl
  | [c] => by
    show collapseCRLF (replaceChar c ++ []) = (collapseCRLF [c]).flatMap replaceChar
    have hc1 : collapseCRLF [c] = [c] := rfl
    rw [hc1, List.append_nil]
    show collapseCRLF (replaceChar c) = replaceChar c ++ []
    rw [List.append_nil]
    by_cases hc : c = '\r'
    · subst hc; decide
    · exact collapseCRLF_no_cr (not_mem_replaceChar (by decide) hc)
  | c1 :: c2 :: rest => by
    show collapseCRLF (replaceChar c1 ++ (replaceChar c2 ++ rest.flatMap replaceChar))
      = (collapseCRLF (c1 :: c2 :: rest)).flatMap replaceChar
    by_cases h : c1 = '\r' ∧ c2 = '\n'
    · obtain ⟨rfl, rfl⟩ := h
      have e1 : replaceChar '\r' = ['\r'] := by decide
      have e2 : replaceChar '\n' = ['\n'] := by decide
      rw [e1, e2]
      show collapseCRLF ('\r' :: '\n' :: rest.flatMap replaceChar)
        = (collapseCRLF ('\r' :: '\n' :: rest)).flatMap replaceChar
      simp only [collapseCRLF]
      rw [if_pos ⟨trivial, trivial⟩, if_pos ⟨trivial, trivial⟩]
      show '\n' :: collapseCRLF (rest.flatMap replaceChar)
        = replaceChar '\n' ++ (collapseCRLF rest).flatMap replaceChar
      rw [e2, collapseCRLF_flatMap rest]
      rfl
    · have hr : collapseCRLF (c1 :: c2 :: rest) = c1 :: collapseCRLF (c2 :: rest) := by
        simp only [collapseCRLF]
        rw [if_neg h]
      rw [hr]
      show collapseCRLF (replaceChar c1 ++ (c2 :: rest).flatMap replaceChar)
        = replaceChar c1 ++ (collapseCRLF (c2 :: rest)).flatMap replaceChar
      rw [← collapseCRLF_flatMap (c2 :: rest)]
      by_cases hc1 : c1 = '\r'
      · subst hc1
        have hc2 : c2 ≠ '\n' := fun hn => h ⟨rfl, hn⟩
        have e1 : replaceChar '\r' = ['\r'] := by decide
        rw [e1]
        rcases hrc : replaceChar c2 with _ | ⟨e, rc⟩
        · exact absurd hrc (replaceChar_ne_nil c2)
        · have he : e ∈ replaceChar c2 := hrc ▸ List.mem_cons_self e rc
          have hen : e ≠ '\n' := fun hn =>
            not_mem_replaceChar (b := '\n') (by decide) hc2 (hn ▸ he)
          have hX : (c2 :: rest).flatMap replaceChar
              = e :: (rc ++ rest.flatMap replaceChar) := by
            simp [hrc]
          rw [hX]
          show collapseCRLF ('\r' :: e :: (rc ++ rest.flatMap replaceChar))
            = '\r' :: collapseCRLF (e :: (rc ++ rest.flatMap replaceChar))
          simp only [collapseCRLF]
          rw [if_neg]
          rintro ⟨-, rfl⟩
          exact hen rfl
      · exact collapseCRLF_append_no_cr _ _
          (not_mem_replaceChar (by decide) hc1)

theorem splitOnBreaks_append :
    ∀ (l xs : List Char), (∀ d ∈ l, isLineBreak d = false) →
      splitOnBreaks (l ++ xs) = prependRun l (splitOnBreaks xs) := by
  intro l
  induction l with
  | nil =>
    intro xs _
    show splitOnBreaks xs = prependRun [] (splitOnBreaks xs)
    cases splitOnBreaks xs <;> simp [prependRun]
  | cons a l ih =>
    intro xs hl
    have ha : isLineBreak a = false := hl a (List.mem_cons_self a l)
    have hl2 : ∀ d ∈ l, isLineBreak d = false :=
      fun d hd => hl d (List.mem_cons_of_mem a hd)
    show splitOnBreaks (a :: (l ++ xs)) = prependRun (a :: l) (splitOnBreaks xs)
    simp only [splitOnBreaks, ha, Bool.false_eq_true, if_false]
    rw [ih xs hl2]
    cases h : splitOnBreaks xs with
    | nil =>
      by_cases he : l = [] <;> simp [prependRun, he]
    | cons m ms =>
      simp [prependRun]

theorem splitOnBreaks_cons_break {c : Char} (h : isLineBreak c = true)
    (xs : List Char) :
    splitOnBreaks (c :: xs) = [] :: splitOnBreaks xs := by
  simp only [splitOnBreaks, h, if_true]

theorem splitOnBreaks_flatMap :
    ∀ u : List Char, splitOnBreaks (u.flatMap replaceChar) =
      (splitOnBreaks u).map (fun l => l.flatMap replaceChar) := by
  intro u
  induction u with
  | nil => rfl
  | cons c u ih =>
    have hcons : (c :: u).flatMap replaceChar
        = replaceChar c ++ u.flatMap replaceChar := by simp
    rw [hcons]
    cases hc : isLineBreak c with
    | true =>
      rw [replaceChar_break hc]
      show splitOnBreaks (c :: u.flatMap replaceChar)
        = (splitOnBreaks (c :: u)).map (fun l => l.flatMap replaceChar)
      simp only [splitOnBreaks, hc, if_true]
      rw [ih]
      simp
    | false =>
      rw [splitOnBreaks_append _ _ (replaceChar_nonbreak hc), ih]
      show prependRun (replaceChar c)
          ((splitOnBreaks u).map (fun l => l.flatMap replaceChar))
        = (splitOnBreaks (c :: u)).map (fun l => l.flatMap replaceChar)
      simp only [splitOnBreaks, hc, Bool.false_eq_true, if_false]
      cases h : splitOnBreaks u with
      | nil =>
        simp [prependRun, replaceChar_ne_nil c]
      | cons m ms =>
        simp [prependRun]

theorem splitOnBreaks_lines_nonbreak :
    ∀ u : List Char, ∀ l ∈ splitOnBreaks u, ∀ d ∈ l, isLineBreak d = false := by
  intro u
  induction u with
  | nil => intro l hl; exact absurd hl (by simp [splitOnBreaks])
  | cons c u ih =>
    intro l hl d hd
    cases hc : isLineBreak c with
    | true =>
      rw [show splitOnBreaks (c :: u) = [] :: splitOnBreaks u by
        simp [splitOnBreaks, hc]] at hl
      rcases List.mem_cons.mp hl with rfl | hmem
      · exact absurd hd (by simp)
      · exact ih l hmem d hd
    | false =>
      simp only [splitOnBreaks, hc, Bool.false_eq_true, if_false] at hl
      cases h : splitOnBreaks u with
      | nil =>
        rw [h] at hl
        simp at hl
        subst hl
        have : d = c := by simpa using hd
        subst this
        exact hc
      | cons m ms =>
        rw [h] at hl
        rcases List.mem_cons.mp hl with rfl | hmem
        · rcases List.mem_cons.mp hd with rfl | hdm
          · exact hc
          · exact ih m (h ▸ List.mem_cons_self m ms) d hdm
        · exact ih l (h ▸ List.mem_cons_of_mem m hmem) d hd

theorem mem_joinNL :
    ∀ (ls : List (List Char)) (x : Char), x ∈ joinNL ls →
      (∃ l ∈ ls, x ∈ l) ∨ x = '\n' := by
  intro ls
  induction ls with
  | nil => intro x hx; exact absurd hx (by simp [joinNL])
  | cons l ls ih =>
    intro x hx
    cases ls with
    | nil => exact Or.inl ⟨l, List.mem_cons_self _ _, by simpa [joinNL] using hx⟩
    | cons l2 ls2 =>
      rw [show joinNL (l :: l2 :: ls2) = l ++ '\n' :: joinNL (l2 :: ls2)
        from rfl] at hx
      rcases List.mem_append.mp hx with h | h
      · exact Or.inl ⟨l, List.mem_cons_self _ _, h⟩
      · rcases List.mem_cons.mp h with rfl | h
        · exact Or.inr rfl
        · rcases ih x h with ⟨m, hm, hxm⟩ | h2
          · exact Or.inl ⟨m, List.mem_cons_of_mem _ hm, hxm⟩
          · exact Or.inr h2

theorem splitOnBreaks_joinNL :
    ∀ ls : List (List Char), (∀ l ∈ ls, ∀ d ∈ l, isLineBreak d = false) →
      splitOnBreaks (joinNL ls) = stripLastEmpty ls := by
  intro ls
  induction ls with
  | nil => intro _; rfl
  | cons l ls ih =>
    intro h
    have hl := h l (List.mem_cons_self _ _)
    have h2 : ∀ m ∈ ls, ∀ d ∈ m, isLineBreak d = false :=
      fun m hm => h m (List.mem_cons_of_mem l hm)
    cases ls with
    | nil =>
      have hsl : splitOnBreaks l = prependRun l [] := by
        have h0 := splitOnBreaks_append l [] hl
        rwa [List.append_nil] at h0
      show splitOnBreaks (joinNL [l]) = stripLastEmpty [l]
      rw [show joinNL [l] = l from rfl, hsl]
      by_cases he : l = [] <;> simp [prependRun, stripLastEmpty, he]
    | cons l2 ls2 =>
      rw [show joinNL (l :: l2 :: ls2) = l ++ '\n' :: joinNL (l2 :: ls2) from rfl,
        splitOnBreaks_append l _ hl,
        splitOnBreaks_cons_break (by decide) (joinNL (l2 :: ls2)),
        ih h2,
        show stripLastEmpty (l :: l2 :: ls2) = l :: stripLastEmpty (l2 :: ls2)
          from rfl]
      simp [prependRun]

theorem mem_stripLeadingMarks : ∀ (l : List Char), ∀ x ∈ stripLeadingMarks l, x ∈ l := by
  intro l
  induction l with
  | nil => intro x hx; exact absurd hx (by simp [stripLeadingMarks])
  | cons c rest ih =>
    intro x hx
    simp only [stripLeadingMarks] at hx
    by_cases hc : isMark c = true
    · rw [if_pos hc] at hx
      exact List.mem_cons_of_mem c (ih x hx)
    · rw [if_neg hc] at hx
      exact hx

theorem mem_rstripCRLF : ∀ (l : List Char), ∀ x ∈ rstripCRLF l, x ∈ l := by
  intro l
  induction l with
  | nil => intro x hx; exact absurd hx (by simp [rstripCRLF])
  | cons c rest ih =>
    intro x hx
    simp only [rstripCRLF] at hx
    cases h : rstripCRLF rest with
    | nil =>
      rw [h] at hx
      by_cases hc : c = '\r' ∨ c = '\n'
      · rw [if_pos hc] at hx
        exact absurd hx (by simp)
      · rw [if_neg hc] at hx
        simp at hx
        simp [hx]
    | cons m ms =>
      rw [h] at hx
      rcases List.mem_cons.mp hx with rfl | hmem
      · exact List.mem_cons_self _ _
      · exact List.mem_cons_of_mem c (ih x (h ▸ hmem))

/-- C9, amended: normalisation processes lines one-to-one and in
order — the output line at each index is exactly the normalisation of the
input line at the same index — except that a trailing line whose
normalised form is empty is dropped when the lines are re-joined with
`"\n"`; in particular the line count is preserved unless the final input
line normalises to the empty line.  (The original claim, exact
preservation of the line count for every input, fails on a text ending in
a line break.) -/
theorem normalize_preserves_lines (t : List Char) :
    pySplitlinesL (normalizeTextL t) =
      stripLastEmpty ((pySplitlinesL t).map normalizeFullLine) := by
  unfold normalizeTextL
  have hbf : ∀ l ∈ (pySplitlinesL (t.flatMap replaceChar)).map normalizeLineL,
      ∀ d ∈ l, isLineBreak d = false := by
    intro l hl d hd
    rcases List.mem_map.mp hl with ⟨l0, hl0, rfl⟩
    have hd0 : d ∈ l0 :=
      mem_stripLeadingMarks l0 d (mem_rstripCRLF (stripLeadingMarks l0) d hd)
    exact splitOnBreaks_lines_nonbreak (collapseCRLF (t.flatMap replaceChar))
      l0 hl0 d hd0
  have hnocr : '\r' ∉
      joinNL ((pySplitlinesL (t.flatMap replaceChar)).map normalizeLineL) := by
    intro hmem
    rcases mem_joinNL _ '\r' hmem with ⟨l, hl, hx⟩ | hEq
    · have := hbf l hl _ hx
      exact absurd this (by decide)
    · exact absurd hEq (by decide)
  unfold pySplitlinesL at hbf hnocr ⊢
  rw [collapseCRLF_no_cr hnocr, splitOnBreaks_joinNL _ hbf]
  congr 1
  rw [collapseCRLF_flatMap, splitOnBreaks_flatMap, List.map_map]
  rfl

/-- C9, counterexample: the input text `"\n"` consists of one (empty)
line, but its normalisation is the empty string, which has no lines at
all: the claimed exact preservation of the line count fails. -/
theorem normalize_line_count_cex :
    (pySplitlinesL (normalizeText "\n").data).length = 0 ∧
      (pySplitlinesL ("\n" : String).data).length = 1 := by
  decide

end ScreenPlayWallpapers
